import Mathlib

/-!
Verification of the price extraction, normalization and alerting logic of the
competitor price tracker. Strings are modelled as `List Char`, monetary values
as exact rationals (the spec mandates fixed-point decimals for money), and the
regular-expression scans of the source are embedded as deterministic character
scanners: each Python pattern used by the code is simple enough that greedy
matching never backtracks (every quantified class is disjoint from the class
that follows it), so a direct functional scan computes the same match.
-/

/-! ## Characters and digit strings -/

/-- Numeric value of an ASCII digit character, as Python's int conversion
sees it (the code only ever feeds `0`-`9` to this). -/
def charVal (c : Char) : ℕ := c.toNat - 48

/-- Value of a digit run, most significant first: the number denoted by a
matched group of `\d` characters. -/
def digitsVal (l : List Char) : ℕ := l.foldl (fun a c => 10 * a + charVal c) 0

/-- Decimal digits of `n`, least significant first; the first argument is
fuel (any bound on the digit count, `n` itself suffices). -/
def toDigitsRev : ℕ → ℕ → List ℕ
  | 0, _ => []
  | fuel+1, n => if n = 0 then [] else (n % 10) :: toDigitsRev fuel (n / 10)

/-- Decimal rendering of a natural number, as Python renders the integer
part of a float: most significant digit first, a lone `0` for zero. -/
def natDigitChars (n : ℕ) : List Char :=
  if n = 0 then ['0'] else ((toDigitsRev n n).map Nat.digitChar).reverse

/-- Two-digit decimal rendering of `m < 100`: the cents field of a price
formatted with two fractional digits. -/
def twoFrac (m : ℕ) : List Char := [Nat.digitChar (m / 10), Nat.digitChar (m % 10)]

/-! ## The canonical display form

`base_scraper.py`, `_format_price`: the Python expression is
`f"€{price:,.2f}".replace(',', 'X').replace('.', ',').replace('X', '.')` —
format with comma thousands-grouping and a two-digit fraction, then swap the
comma and period characters. Prices reaching it are non-negative; a price with
two fractional digits is modelled exactly by its count of cents. -/

/-- Thousands grouping: `group3Aux sep k l` walks the digits least significant
first, `k` counting the digits already placed in the current group of three;
a separator is emitted before every fourth, seventh, ... digit. -/
def group3Aux (sep : Char) : ℕ → List Char → List Char
  | _, [] => []
  | k, c :: rest =>
    if k = 3 then sep :: c :: group3Aux sep 1 rest
    else c :: group3Aux sep (k + 1) rest

/-- Insert `sep` every three digits from the right, as Python's `,` format
specifier groups the integer part. -/
def group3 (sep : Char) (l : List Char) : List Char :=
  (group3Aux sep 0 l.reverse).reverse

/-- The output of `f"{price:,.2f}"` for a price of `cents` hundredths:
comma-grouped integer part, a period, two fraction digits. -/
def formatGrouped (cents : ℕ) : List Char :=
  group3 ',' (natDigitChars (cents / 100)) ++ '.' :: twoFrac (cents % 100)

/-- The separator swap performed by the three `replace` calls. -/
def swapSep (c : Char) : Char :=
  if c = ',' then '.' else if c = '.' then ',' else c

/-- Embeds `_format_price` (base_scraper.py lines 281-291) on a price of
`cents` hundredths: euro sign, then the grouped rendering with comma and
period exchanged. -/
def formatPrice (cents : ℕ) : List Char :=
  ('€' :: formatGrouped cents).map swapSep

/-! ## The alert system's price parser

`alert_system.py`, `parse_price`: delete every period, turn every comma into
a period, take the first match of `\d+[.,]?\d*` and convert it with `float`;
`0.0` when there is no match. After the two substitutions no comma remains,
so the matched token is digits with at most one embedded period. -/

/-- Greedy match of `\d+[.,]?\d*` starting at a digit: the digit run, then
one separator if present, then the following digit run. Deterministic because
a digit is never a separator, so the greedy quantifiers cannot backtrack. -/
def numToken (l : List Char) : List Char :=
  match l.dropWhile Char.isDigit with
  | s :: r2 =>
    if s = '.' ∨ s = ',' then
      l.takeWhile Char.isDigit ++ s :: r2.takeWhile Char.isDigit
    else l.takeWhile Char.isDigit
  | [] => l.takeWhile Char.isDigit

/-- First match of `\d+[.,]?\d*` in the text: the pattern begins with `\d+`,
so the earliest match starts at the first digit. -/
def findNumToken : List Char → Option (List Char)
  | [] => none
  | c :: rest => if c.isDigit then some (numToken (c :: rest)) else findNumToken rest

/-- Value of a token accepted by Python's `float`: digits, optionally one
embedded period followed by the fractional digits. -/
def floatVal (l : List Char) : ℚ :=
  (digitsVal (l.takeWhile (fun c => decide (c ≠ '.'))) : ℚ) +
    (digitsVal ((l.dropWhile (fun c => decide (c ≠ '.'))).drop 1) : ℚ) /
      10 ^ ((l.dropWhile (fun c => decide (c ≠ '.'))).drop 1).length

/-- Embeds `parse_price` (alert_system.py lines 65-72). The matched token
cannot contain a comma (all commas were just replaced), so `float` cannot
fail and is `floatVal`. -/
def parse_price (s : List Char) : ℚ :=
  match findNumToken ((s.filter (fun c => decide (c ≠ '.'))).map
      (fun c => if c = ',' then '.' else c)) with
  | some tok => floatVal tok
  | none => 0

/-! ## The base scraper's price parser

`base_scraper.py`, `_parse_price` (lines 204-250): strip the text, try four
regex patterns in order, repair European separators in the captured group,
convert with `float`; move to the next pattern when `float` fails; raise when
every pattern fails. -/

/-- Python `str.strip`: drop whitespace from both ends. -/
def trimChars (l : List Char) : List Char :=
  ((l.dropWhile Char.isWhitespace).reverse.dropWhile Char.isWhitespace).reverse

/-- Membership of the separator class `[.,]`. -/
def isSepDot (c : Char) : Bool := c = '.' || c = ','

/-- Greedy run of `(?:SEP\d{3})*` groups: consume a separator admitted by
`sepOk` followed by exactly three digits, as long as both are present.
Returns the consumed characters and the remainder. -/
def starThrees (sepOk : Char → Bool) : List Char → List Char × List Char
  | s :: a :: b :: c :: rest =>
    if sepOk s ∧ a.isDigit ∧ b.isDigit ∧ c.isDigit then
      let (g, r) := starThrees sepOk rest
      (s :: a :: b :: c :: g, r)
    else ([], s :: a :: b :: c :: rest)
  | l => ([], l)

/-- The optional tail `(?:SEP\d{2})?`: a separator admitted by `sepOk`
followed by exactly two digits, or nothing. -/
def optTwo (sepOk : Char → Bool) : List Char → List Char
  | s :: a :: b :: _ => if sepOk s ∧ a.isDigit ∧ b.isDigit then [s, a, b] else []
  | _ => []

/-- The group captured by `\d{1,3}(?:S1\d{3})*(?:S2\d{2})?` when matching
starts at a digit: one to three digits greedily, then the thousand groups,
then the optional two-digit tail. Every quantified part is followed only by
optional parts, so greedy matching never backtracks. -/
def captureGrouped (s1Ok s2Ok : Char → Bool) (l : List Char) : List Char :=
  (l.takeWhile Char.isDigit).take 3 ++
    (starThrees s1Ok (l.drop ((l.takeWhile Char.isDigit).take 3).length)).1 ++
      optTwo s2Ok (starThrees s1Ok (l.drop ((l.takeWhile Char.isDigit).take 3).length)).2

/-- Search for pattern 1, `[€$£¥]?\s*(\d{1,3}(?:[.,]\d{3})*(?:[.,]\d{2})?)`.
The optional currency/whitespace prefix only widens the whole match to the
left of the capture: the capture of the earliest match always starts at the
first digit of the text (a match starting at the capture position itself also
succeeds with an empty prefix, and no capture can start before a digit), so
the search reduces to capturing greedily from the first digit. -/
def searchP1 : List Char → Option (List Char)
  | [] => none
  | c :: rest =>
    if c.isDigit then some (captureGrouped isSepDot isSepDot (c :: rest))
    else searchP1 rest

/-- Search for pattern 2, `(\d{1,3}(?:\.\d{3})*(?:,\d{2})?)`: the pattern
starts at `\d`, so the earliest match starts at the first digit. -/
def searchP2 : List Char → Option (List Char)
  | [] => none
  | c :: rest =>
    if c.isDigit then
      some (captureGrouped (fun s => s = '.') (fun s => s = ',') (c :: rest))
    else searchP2 rest

/-- Attempt of pattern 3, `(\d+[.,]\d{2})`, anchored at the current position:
the full digit run (backtracking it cannot expose a separator), then a
separator, then exactly two digits. -/
def p3At (l : List Char) : Option (List Char) :=
  let ds := l.takeWhile Char.isDigit
  if ds = [] then none
  else
    match l.drop ds.length with
    | s :: a :: b :: _ =>
      if isSepDot s ∧ a.isDigit ∧ b.isDigit then some (ds ++ [s, a, b]) else none
    | _ => none

/-- Search for pattern 3 at each position from the left. -/
def searchP3 : List Char → Option (List Char)
  | [] => none
  | c :: rest =>
    match p3At (c :: rest) with
    | some g => some g
    | none => searchP3 rest

/-- Search for pattern 4, `(\d+)`: the first maximal digit run. -/
def searchP4 : List Char → Option (List Char)
  | [] => none
  | c :: rest =>
    if c.isDigit then some ((c :: rest).takeWhile Char.isDigit) else searchP4 rest

/-- Python `str.split(',')`. -/
def splitOnComma : List Char → List (List Char)
  | [] => [[]]
  | c :: rest =>
    let r := splitOnComma rest
    if c = ',' then [] :: r else (c :: r.headD []) :: r.tail

/-- The European separator repair of `_parse_price` (lines 229-241): with
both a comma and a period, drop the periods and make the comma the decimal
point; with commas only, a two-element split whose second part has two digits
marks a decimal comma, anything else marks thousands commas to delete. -/
def fixSeparators (ps : List Char) : List Char :=
  if ',' ∈ ps ∧ '.' ∈ ps then
    (ps.filter (fun c => decide (c ≠ '.'))).map (fun c => if c = ',' then '.' else c)
  else if ',' ∈ ps then
    let parts := splitOnComma ps
    if parts.length = 2 ∧ (parts.getD 1 []).length = 2 then
      ps.map (fun c => if c = ',' then '.' else c)
    else ps.filter (fun c => decide (c ≠ ','))
  else ps

/-- Python `float` on the strings the parser can produce: digit runs with
embedded separators. It accepts digits with at most one period (no comma
survives `fixSeparators`, and a second period raises `ValueError`). -/
def pyFloat (l : List Char) : Option ℚ :=
  if l ≠ [] ∧ l ≠ ['.'] ∧ (∀ c ∈ l, c.isDigit ∨ c = '.') ∧ l.count '.' ≤ 1 then
    some (floatVal l)
  else none

/-- One iteration of the pattern loop: search, repair separators, convert;
`none` both when the pattern does not match and when `float` fails. -/
def tryPattern (search : List Char → Option (List Char)) (s : List Char) : Option ℚ :=
  match search s with
  | some g => pyFloat (fixSeparators g)
  | none => none

/-- Embeds `_parse_price` (base_scraper.py lines 204-250): `none` models the
raised `ValueError` (the spec's `UnparsablePrice`). -/
def parsePrice (priceText : List Char) : Option ℚ :=
  if priceText = [] then none
  else
    match tryPattern searchP1 (trimChars priceText) with
    | some v => some v
    | none =>
      match tryPattern searchP2 (trimChars priceText) with
      | some v => some v
      | none =>
        match tryPattern searchP3 (trimChars priceText) with
        | some v => some v
        | none => tryPattern searchP4 (trimChars priceText)

/-! ## Site-specific extraction variants

Three modules carry their own `normalize_price`; the phoneclick scraper also
selects among multiple amounts inside one price container. -/

/-- Attempt of `\s*(\d+[.,]\d+)` at the current position: skip whitespace,
a digit run, one separator, a digit run. Returns the captured group and the
remainder after the whole match (for non-overlapping `findall` resumption). -/
def amountAfter (l : List Char) : Option (List Char × List Char) :=
  let r0 := l.dropWhile Char.isWhitespace
  let ds := r0.takeWhile Char.isDigit
  if ds = [] then none
  else
    match r0.drop ds.length with
    | s :: r2 =>
      if isSepDot s then
        let fs := r2.takeWhile Char.isDigit
        if fs = [] then none else some (ds ++ s :: fs, r2.drop fs.length)
      else none
    | [] => none

/-- Non-overlapping `re.findall(r'€\s*(\d+[.,]\d+)', text)` (phoneclick.py
line 48): at each euro sign try the amount, resume after a successful match,
at the next character otherwise. Fuel is the text length; every step consumes
at least one character. -/
def findallEuroAux : ℕ → List Char → List (List Char)
  | 0, _ => []
  | _+1, [] => []
  | fuel+1, c :: rest =>
    if c = '€' then
      match amountAfter rest with
      | some (g, rem) => g :: findallEuroAux fuel rem
      | none => findallEuroAux fuel rest
    else findallEuroAux fuel rest

/-- All euro amounts in a price container's text, in order. -/
def findallEuro (l : List Char) : List (List Char) := findallEuroAux l.length l

/-- Python `str.replace` of the literal `&nbsp;` with nothing, scanning left
to right without overlap; fuel is the text length. -/
def removeNbspAux : ℕ → List Char → List Char
  | 0, l => l
  | _+1, [] => []
  | fuel+1, c :: rest =>
    if c = '&' ∧ rest.take 5 = ['n', 'b', 's', 'p', ';'] then
      removeNbspAux fuel (rest.drop 5)
    else c :: removeNbspAux fuel rest

/-- Removal of `&nbsp;` artifacts in the phoneclick normalizer. -/
def removeNbsp (l : List Char) : List Char := removeNbspAux l.length l

/-- Search for `€?\s*(\d+[.,]\d+)` through its capture: as with pattern 1,
the optional prefix cannot move the capture, so the earliest capture is the
first position where digit-run, separator, digit-run matches. -/
def searchAmount : List Char → Option (List Char)
  | [] => none
  | c :: rest =>
    match amountAfter (c :: rest) with
    | some (g, _) => some g
    | none => searchAmount rest

/-- Embeds phoneclick.py `normalize_price` (lines 71-84): strip, drop
`&nbsp;`, keep the first amount with a rebuilt euro sign, or return the
cleaned text unchanged when nothing matches. -/
def pcNormalizePrice (t : List Char) : List Char :=
  let s := removeNbsp (trimChars t)
  match searchAmount s with
  | some g => '€' :: g
  | none => s

/-- Embeds the price selection of `scrape_phoneclick` (phoneclick.py lines
44-58) on the text of the price container: collect every `€` amount, fail
when there is none, otherwise normalize the euro-prefixed **last** match. -/
def scrapePhoneclickPrice (fullText : List Char) : Option (List Char) :=
  match findallEuro fullText with
  | [] => none
  | m :: ms => some (pcNormalizePrice ('€' :: (m :: ms).getLast (by simp)))

/-- Maximal digit runs in order: `re.findall(r'\d+', text)` (amazon.py line
75). Fuel is the text length; a found run is consumed whole. -/
def digitRunsAux : ℕ → List Char → List (List Char)
  | 0, _ => []
  | _+1, [] => []
  | fuel+1, c :: rest =>
    if c.isDigit then
      ((c :: rest).takeWhile Char.isDigit) ::
        digitRunsAux fuel ((c :: rest).dropWhile Char.isDigit)
    else digitRunsAux fuel rest

/-- All digit runs of a text, in order. -/
def digitRuns (l : List Char) : List (List Char) := digitRunsAux l.length l

/-- Attempt of `(\d+)[.,](\d+)` at the current position, returning the two
captured runs. -/
def sepPairAt (l : List Char) : Option (List Char × List Char) :=
  let ds := l.takeWhile Char.isDigit
  if ds = [] then none
  else
    match l.drop ds.length with
    | s :: r2 =>
      if isSepDot s then
        let fs := r2.takeWhile Char.isDigit
        if fs = [] then none else some (ds, fs)
      else none
    | [] => none

/-- Search for `(\d+)[.,](\d+)` at each position from the left. -/
def searchSepPair : List Char → Option (List Char × List Char)
  | [] => none
  | c :: rest =>
    match sepPairAt (c :: rest) with
    | some p => some p
    | none => searchSepPair rest

/-- Embeds amazon.py `normalize_price` (lines 65-94): with a euro sign and at
least two digit runs, rebuild from the **first two** runs; with one run,
append `,00`; with a euro sign but no digits Python falls through to the
signless branches, which match a separated pair, then a bare run, then give
the stripped text back. -/
def amazonNormalizePrice (t : List Char) : List Char :=
  let s := trimChars t
  if '€' ∈ s ∧ 2 ≤ (digitRuns s).length then
    '€' :: (digitRuns s).getD 0 [] ++ ',' :: (digitRuns s).getD 1 []
  else if '€' ∈ s ∧ (digitRuns s).length = 1 then
    '€' :: (digitRuns s).getD 0 [] ++ [',', '0', '0']
  else
    match searchSepPair s with
    | some (e, c) => '€' :: e ++ ',' :: c
    | none =>
      match searchP4 s with
      | some d => '€' :: d ++ [',', '0', '0']
      | none => s

/-- Search for `€\s*(\d+[.,]\d+)` (teknozone.py line 86): at each euro sign
try the amount, else continue at the next character. -/
def searchEuroAmount : List Char → Option (List Char)
  | [] => none
  | c :: rest =>
    if c = '€' then
      match amountAfter rest with
      | some (g, _) => some g
      | none => searchEuroAmount rest
    else searchEuroAmount rest

/-- Embeds teknozone.py `normalize_price` (lines 78-91): the first euro
amount with a rebuilt sign, or the stripped text when none matches. -/
def tzNormalizePrice (t : List Char) : List Char :=
  let s := trimChars t
  match searchEuroAmount s with
  | some g => '€' :: g
  | none => s

/-! ## The alert evaluator

`alert_system.py`, `check_price_alerts` (lines 74-122). Reasons carry their
exact numeric payloads; the `:.1f` / `:.2f` renderings of those payloads in
the Python reason strings are presentation only. -/

/-- A trigger reason, with its computed payload. -/
inductive AlertReason
  | pctDrop (p : ℚ)
  | absDrop (d : ℚ)
  | targetReached (t : ℚ)
deriving DecidableEq

/-- One entry of the `current_prices` list handed to the alert check. -/
structure PriceData where
  site : List Char
  title : List Char
  price : List Char
  url : List Char

/-- The alert configuration: the two thresholds and the per-site target
prices (an association list standing for the JSON object). -/
structure AlertConfig where
  percentageDrop : ℚ
  absoluteDrop : ℚ
  targetPrices : List (List Char × ℚ)

/-- Python `dict.get(key, 0)` on an association list. -/
def lookupD (m : List (List Char × ℚ)) (k : List Char) : ℚ :=
  match m.lookup k with
  | some v => v
  | none => 0

/-- A materialized alert record. The timestamp field is wall-clock I/O and
is not modelled. -/
structure Alert where
  site : List Char
  title : List Char
  currentPrice : ℚ
  lastPrice : ℚ
  priceFormatted : List Char
  url : List Char
  reasons : List AlertReason

/-- The three rules of lines 93-107, in source order: percentage drop,
absolute drop, target reached. -/
def alertReasonsFor (lastPrice currentPrice targetPrice pctThr absThr : ℚ) :
    List AlertReason :=
  (if lastPrice > currentPrice ∧
      ((lastPrice - currentPrice) / lastPrice) * 100 ≥ pctThr then
    [AlertReason.pctDrop (((lastPrice - currentPrice) / lastPrice) * 100)]
  else []) ++
  (if lastPrice > currentPrice ∧ lastPrice - currentPrice ≥ absThr then
    [AlertReason.absDrop (lastPrice - currentPrice)]
  else []) ++
  (if targetPrice > 0 ∧ currentPrice ≤ targetPrice then
    [AlertReason.targetReached targetPrice]
  else [])

/-- One loop iteration of `check_price_alerts` for one entry: parse the
displayed price, look up the baseline and target with default `0`, skip
(`continue`) when the baseline or the current price is zero, and materialize
an alert record only when at least one rule fired. -/
def checkEntry (lastPrices : List (List Char × ℚ)) (cfg : AlertConfig)
    (pd : PriceData) : Option Alert :=
  let currentPrice := parse_price pd.price
  let lastPrice := lookupD lastPrices pd.site
  let targetPrice := lookupD cfg.targetPrices pd.site
  if lastPrice = 0 ∨ currentPrice = 0 then none
  else
    let reasons :=
      alertReasonsFor lastPrice currentPrice targetPrice
        cfg.percentageDrop cfg.absoluteDrop
    if reasons = [] then none
    else
      some ⟨pd.site, pd.title, currentPrice, lastPrice, pd.price, pd.url, reasons⟩

/-- Embeds `check_price_alerts`: the alert records of the entries whose
iteration appended one. -/
def checkPriceAlerts (lastPrices : List (List Char × ℚ)) (cfg : AlertConfig)
    (currentPrices : List PriceData) : List Alert :=
  currentPrices.filterMap (checkEntry lastPrices cfg)

/-! ## Scraping results and the tracking cycle

`base_scraper.py` `ScrapingResult`, `BaseScraper.scrape` and `main.py`
`scrape_all_sites`. The template method is a pure function of the outcome of
its I/O and extraction steps: a combined `Except` stands for the `try` body
(fetch, title extraction, price extraction), since any raised exception lands
in the same handler. Wall-clock fields (`response_time`, `scraped_at`) are
I/O and not modelled. -/

/-- The result record of one scraping attempt. -/
structure ScrapingResult where
  site : List Char
  title : List Char
  priceText : List Char
  formattedPrice : List Char
  priceNumeric : ℚ
  currency : List Char
  url : List Char
  success : Bool
  errorMessage : Option (List Char)

/-- `ScrapingResult.failed_result` (lines 39-53): empty fields, zero price,
`success = False`. -/
def failedResult (site url error : List Char) : ScrapingResult :=
  ⟨site, [], [], [], 0, ("EUR".toList), url, false, some error⟩

/-- `_validate_extracted_data` (lines 252-279): raise on an empty title, an
empty price text, or a non-positive numeric price. The min/max plausibility
range only logs a warning and cannot fail. -/
def validateExtractedData (title priceText : List Char) (priceNumeric : ℚ) :
    Bool :=
  ¬ (title = []) ∧ ¬ (priceText = []) ∧ 0 < priceNumeric

/-- Cents of a non-negative float price as `:.2f` renders it (round to two
places; the tie behaviour of binary floats never surfaces for the prices in
scope). -/
def centsOfRat (q : ℚ) : ℕ := (round (q * 100)).toNat

/-- `_format_price` on the numeric price of a successful result. -/
def formatPriceRat (q : ℚ) : List Char := formatPrice (centsOfRat q)

/-- Embeds `BaseScraper.scrape` (lines 82-131): on any exception from the
fetch/extract steps, and on a validation failure, the failed result; else the
successful record built from the extracted data. -/
def scrape (siteName url : List Char)
    (attempt : Except (List Char) (List Char × List Char × ℚ)) :
    ScrapingResult :=
  match attempt with
  | .error e => failedResult siteName url e
  | .ok (title, priceText, priceNumeric) =>
    if validateExtractedData title priceText priceNumeric then
      ⟨siteName, trimChars title, priceText, formatPriceRat priceNumeric,
        priceNumeric, ("EUR".toList), url, true, none⟩
    else failedResult siteName url ("Dati estratti non validi".toList)

/-- What `asyncio.gather(..., return_exceptions=True)` hands back for one
site in `scrape_all_sites`: an exception object, the `None` that
`_scrape_single_site` returns after catching an error, or a result. -/
inductive SiteOutcome
  | exc (msg : List Char)
  | noneResult
  | res (r : ScrapingResult)

/-- The result-processing loop of `scrape_all_sites` (main.py lines 102-143):
keep exactly the outcomes that are results with `success` set; exceptions and
`None` are logged and skipped. -/
def scrapeAllSites (outcomes : List SiteOutcome) : List ScrapingResult :=
  outcomes.filterMap fun o =>
    match o with
    | .res r => if r.success then some r else none
    | _ => none

/-! ## Helper lemmas on characters and digit strings -/

theorem isDigit_ne_dot {c : Char} (h : c.isDigit = true) : c ≠ '.' := by
  intro hc; subst hc; simp [Char.isDigit] at h

theorem isDigit_ne_comma {c : Char} (h : c.isDigit = true) : c ≠ ',' := by
  intro hc; subst hc; simp [Char.isDigit] at h

theorem isDigit_ne_euro {c : Char} (h : c.isDigit = true) : c ≠ '€' := by
  intro hc; subst hc; simp [Char.isDigit] at h

theorem isWhitespace_not_digit {c : Char} (h : c.isWhitespace = true) :
    c.isDigit = false := by
  simp [Char.isWhitespace] at h
  rcases h with ((h | h) | h) | h <;> (subst h; rfl)

theorem isDigit_not_ws {c : Char} (h : c.isDigit = true) :
    c.isWhitespace = false := by
  cases hw : c.isWhitespace with
  | false => rfl
  | true => rw [isWhitespace_not_digit hw] at h; cases h

theorem charVal_digitChar {d : ℕ} (h : d < 10) : charVal (Nat.digitChar d) = d := by
  interval_cases d <;> rfl

theorem isDigit_digitChar {d : ℕ} (h : d < 10) : (Nat.digitChar d).isDigit = true := by
  interval_cases d <;> rfl

theorem map_eq_self_of {f : Char → Char} {l : List Char}
    (h : ∀ c ∈ l, f c = c) : l.map f = l := by
  conv_rhs => rw [← List.map_id l]
  exact List.map_congr_left h

theorem takeWhile_append_all {p : Char → Bool} {l : List Char} (r : List Char)
    (h : ∀ c ∈ l, p c = true) : (l ++ r).takeWhile p = l ++ r.takeWhile p := by
  rw [List.takeWhile_append]
  simp [List.takeWhile_eq_self_iff.mpr h]

theorem dropWhile_append_all {p : Char → Bool} {l : List Char} (r : List Char)
    (h : ∀ c ∈ l, p c = true) : (l ++ r).dropWhile p = r.dropWhile p := by
  rw [List.dropWhile_append]
  simp [List.dropWhile_eq_nil_iff.mpr h]

theorem dropWhile_eq_self_all {p : Char → Bool} {l : List Char}
    (h : ∀ c ∈ l, p c = false) : l.dropWhile p = l := by
  cases l with
  | nil => rfl
  | cons c t => rw [List.dropWhile_cons, h c (List.mem_cons_self c t)]; simp

theorem trimChars_eq_self {l : List Char}
    (h : ∀ c ∈ l, c.isWhitespace = false) : trimChars l = l := by
  unfold trimChars
  rw [dropWhile_eq_self_all h,
    dropWhile_eq_self_all (fun c hc => h c (List.mem_reverse.mp hc)),
    List.reverse_reverse]

theorem foldl_digitsVal (l : List Char) (a : ℕ) :
    l.foldl (fun a c => 10 * a + charVal c) a = a * 10 ^ l.length + digitsVal l := by
  induction l generalizing a with
  | nil => simp [digitsVal]
  | cons c t ih =>
    have hv : digitsVal (c :: t) = charVal c * 10 ^ t.length + digitsVal t := by
      show List.foldl _ 0 (c :: t) = _
      rw [List.foldl_cons, ih (10 * 0 + charVal c)]
      ring
    rw [List.foldl_cons, ih (10 * a + charVal c), hv, List.length_cons]
    ring

theorem digitsVal_append (a b : List Char) :
    digitsVal (a ++ b) = digitsVal a * 10 ^ b.length + digitsVal b := by
  show List.foldl _ 0 (a ++ b) = _
  rw [List.foldl_append]
  exact foldl_digitsVal b (digitsVal a)

theorem toDigitsRev_lt (fuel n : ℕ) : ∀ d ∈ toDigitsRev fuel n, d < 10 := by
  induction fuel generalizing n with
  | zero => intro d hd; simp [toDigitsRev] at hd
  | succ fuel ih =>
    intro d hd
    unfold toDigitsRev at hd
    by_cases h0 : n = 0
    · simp [h0] at hd
    · rw [if_neg h0] at hd
      rcases List.mem_cons.mp hd with h | h
      · exact h ▸ Nat.mod_lt _ (by norm_num)
      · exact ih (n / 10) d h

theorem digitsVal_toDigitsRev {fuel n : ℕ} (h : n ≤ fuel) :
    digitsVal (((toDigitsRev fuel n).map Nat.digitChar).reverse) = n := by
  induction fuel generalizing n with
  | zero => interval_cases n; rfl
  | succ fuel ih =>
    unfold toDigitsRev
    by_cases h0 : n = 0
    · subst h0; rfl
    · rw [if_neg h0, List.map_cons, List.reverse_cons, digitsVal_append]
      have hdiv : n / 10 ≤ fuel :=
        Nat.le_of_lt_succ (Nat.lt_of_lt_of_le
          (Nat.div_lt_self (Nat.pos_of_ne_zero h0) (by norm_num)) h)
      have hc : charVal (Nat.digitChar (n % 10)) = n % 10 :=
        charVal_digitChar (Nat.mod_lt n (by norm_num))
      rw [ih hdiv]
      simp [digitsVal, hc]
      omega

theorem digitsVal_natDigitChars (n : ℕ) : digitsVal (natDigitChars n) = n := by
  unfold natDigitChars
  by_cases h0 : n = 0
  · subst h0; rfl
  · rw [if_neg h0]; exact digitsVal_toDigitsRev le_rfl

theorem natDigitChars_all_digit (n : ℕ) :
    ∀ c ∈ natDigitChars n, c.isDigit = true := by
  intro c hc
  unfold natDigitChars at hc
  by_cases h0 : n = 0
  · simp [h0] at hc; subst hc; rfl
  · rw [if_neg h0] at hc
    rw [List.mem_reverse, List.mem_map] at hc
    obtain ⟨d, hd, rfl⟩ := hc
    exact isDigit_digitChar (toDigitsRev_lt n n d hd)

theorem natDigitChars_ne_nil (n : ℕ) : natDigitChars n ≠ [] := by
  unfold natDigitChars
  by_cases h0 : n = 0
  · simp [h0]
  · rw [if_neg h0]
    obtain ⟨m, rfl⟩ := Nat.exists_eq_succ_of_ne_zero h0
    simp [toDigitsRev]

theorem twoFrac_all_digit {m : ℕ} (h : m < 100) :
    ∀ c ∈ twoFrac m, c.isDigit = true := by
  intro c hc
  unfold twoFrac at hc
  rcases List.mem_cons.mp hc with rfl | hc
  · exact isDigit_digitChar (by omega)
  · rcases List.mem_singleton.mp hc with rfl
    exact isDigit_digitChar (Nat.mod_lt m (by norm_num))

theorem twoFrac_length (m : ℕ) : (twoFrac m).length = 2 := rfl

theorem digitsVal_twoFrac {m : ℕ} (h : m < 100) : digitsVal (twoFrac m) = m := by
  have h1 : charVal (Nat.digitChar (m / 10)) = m / 10 :=
    charVal_digitChar (by omega)
  have h2 : charVal (Nat.digitChar (m % 10)) = m % 10 :=
    charVal_digitChar (Nat.mod_lt m (by norm_num))
  unfold twoFrac digitsVal
  simp [h1, h2]
  omega

/-! ## Lemmas on the grouped display form -/

theorem group3Aux_map (f : Char → Char) (sep : Char) (l : List Char) :
    ∀ k, (group3Aux sep k l).map f = group3Aux (f sep) k (l.map f) := by
  induction l with
  | nil => intro k; rfl
  | cons c t ih =>
    intro k
    by_cases hk : k = 3 <;> simp [group3Aux, hk, ih]

theorem group3Aux_filter {sep : Char} {l : List Char} (h : ∀ c ∈ l, c ≠ sep) :
    ∀ k, (group3Aux sep k l).filter (fun c => decide (c ≠ sep)) = l := by
  induction l with
  | nil => intro k; rfl
  | cons c t ih =>
    intro k
    have hc : c ≠ sep := h c (List.mem_cons_self c t)
    have ht := ih (fun x hx => h x (List.mem_cons_of_mem c hx))
    simp only [decide_not] at ht
    by_cases hk : k = 3
    · simp only [group3Aux, if_pos hk, List.filter_cons]
      simp [hc, ht 1]
    · simp only [group3Aux, if_neg hk, List.filter_cons]
      simp [hc, ht (k + 1)]

theorem group3Aux_short {sep : Char} {l : List Char} :
    ∀ k, l.length + k ≤ 3 → group3Aux sep k l = l := by
  induction l with
  | nil => intro k _; rfl
  | cons c t ih =>
    intro k hk
    have hk3 : ¬ (k = 3) := by simp at hk; omega
    simp only [group3Aux, if_neg hk3]
    rw [ih (k + 1) (by simp at hk ⊢; omega)]

theorem group3_map (f : Char → Char) (sep : Char) (l : List Char) :
    (group3 sep l).map f = group3 (f sep) (l.map f) := by
  unfold group3
  rw [List.map_reverse, group3Aux_map, List.map_reverse]

theorem group3_filter {sep : Char} {l : List Char} (h : ∀ c ∈ l, c ≠ sep) :
    (group3 sep l).filter (fun c => decide (c ≠ sep)) = l := by
  unfold group3
  rw [List.filter_reverse,
    group3Aux_filter (fun c hc => h c (List.mem_reverse.mp hc)),
    List.reverse_reverse]

theorem group3_short {sep : Char} {l : List Char} (h : l.length ≤ 3) :
    group3 sep l = l := by
  unfold group3
  rw [group3Aux_short 0 (by simp [h]), List.reverse_reverse]

theorem swapSep_digit {c : Char} (h : c.isDigit = true) : swapSep c = c := by
  unfold swapSep
  rw [if_neg (isDigit_ne_comma h), if_neg (isDigit_ne_dot h)]

/-- The display form laid bare: euro sign, the integer digits grouped in
threes by periods, a comma, the two cent digits. -/
theorem formatPrice_eq (cents : ℕ) :
    formatPrice cents =
      '€' :: (group3 '.' (natDigitChars (cents / 100)) ++
        ',' :: twoFrac (cents % 100)) := by
  have hfr : ∀ c ∈ twoFrac (cents % 100), c.isDigit = true :=
    twoFrac_all_digit (Nat.mod_lt cents (by norm_num))
  unfold formatPrice formatGrouped
  rw [List.map_cons, List.map_append, List.map_cons,
    group3_map, map_eq_self_of (fun c hc => swapSep_digit (natDigitChars_all_digit _ c hc)),
    map_eq_self_of (fun c hc => swapSep_digit (hfr c hc))]
  rfl

/-! ## The display and parse round trip -/

/-- The alert parser on a displayed price: substitutions expose euro sign,
integer digits, period, fraction digits; the matched token is valued exactly. -/
theorem parse_price_shape {ids fr : List Char} (hne : ids ≠ [])
    (hids : ∀ c ∈ ids, c.isDigit = true) (hfr : ∀ c ∈ fr, c.isDigit = true) :
    parse_price ('€' :: (group3 '.' ids ++ ',' :: fr)) =
      (digitsVal ids : ℚ) + (digitsVal fr : ℚ) / 10 ^ fr.length := by
  have hidsDot : ∀ c ∈ ids, decide (c ≠ '.') = true :=
    fun c hc => by simp [isDigit_ne_dot (hids c hc)]
  have hfrDot : ∀ c ∈ fr, decide (c ≠ '.') = true :=
    fun c hc => by simp [isDigit_ne_dot (hfr c hc)]
  have h1 : (('€' :: (group3 '.' ids ++ ',' :: fr)).filter
      (fun c => decide (c ≠ '.'))) = '€' :: (ids ++ ',' :: fr) := by
    rw [List.filter_cons, List.filter_append,
      group3_filter (fun c hc => isDigit_ne_dot (hids c hc)), List.filter_cons,
      List.filter_eq_self.mpr hfrDot]
    rw [if_pos (by decide), if_pos (by decide)]
  have h2 : (('€' :: (ids ++ ',' :: fr)).map
      (fun c => if c = ',' then '.' else c)) = '€' :: (ids ++ '.' :: fr) := by
    rw [List.map_cons, List.map_append, List.map_cons,
      map_eq_self_of (fun c hc => if_neg (isDigit_ne_comma (hids c hc))),
      map_eq_self_of (fun c hc => if_neg (isDigit_ne_comma (hfr c hc))),
      if_neg (by decide), if_pos rfl]
  have h4 : numToken (ids ++ '.' :: fr) = ids ++ '.' :: fr := by
    unfold numToken
    rw [takeWhile_append_all _ hids, dropWhile_append_all _ hids]
    simp [List.takeWhile_cons, List.dropWhile_cons,
      show ('.' : Char).isDigit = false from rfl, List.takeWhile_eq_self_iff.mpr hfr]
  have h3 : findNumToken ('€' :: (ids ++ '.' :: fr)) = some (ids ++ '.' :: fr) := by
    obtain ⟨c, t, rfl⟩ := List.exists_cons_of_ne_nil hne
    have hc : c.isDigit = true := hids c (List.mem_cons_self c t)
    rw [List.cons_append]
    simp only [findNumToken, show ('€' : Char).isDigit = false from rfl]
    simp only [Bool.false_eq_true, if_false, hc, if_true]
    rw [← List.cons_append, h4]
  have h5 : floatVal (ids ++ '.' :: fr) =
      (digitsVal ids : ℚ) + (digitsVal fr : ℚ) / 10 ^ fr.length := by
    unfold floatVal
    rw [takeWhile_append_all _ hidsDot, dropWhile_append_all _ hidsDot]
    simp [List.takeWhile_cons, List.dropWhile_cons]
  unfold parse_price
  rw [h1, h2, h3]
  exact h5

/-- Claim C1: for every valid decimal price value (non-negative, two
fractional digits, modelled as its count of cents), normalizing the canonical
display string produced for it returns exactly that value:
`parse_price (formatPrice cents) = cents / 100`. -/
theorem C1_display_roundtrip (cents : ℕ) :
    parse_price (formatPrice cents) = (cents : ℚ) / 100 := by
  rw [formatPrice_eq]
  have hmod : cents % 100 < 100 := Nat.mod_lt cents (by norm_num)
  rw [parse_price_shape (natDigitChars_ne_nil _) (natDigitChars_all_digit _)
    (twoFrac_all_digit hmod)]
  rw [digitsVal_natDigitChars, digitsVal_twoFrac hmod, twoFrac_length]
  have h := Nat.div_add_mod cents 100
  rw [show ((cents : ℚ)) = 100 * ((cents / 100 : ℕ) : ℚ) + ((cents % 100 : ℕ) : ℚ) from by
    exact_mod_cast h.symm]
  ring

/-! ## Claims about the display format -/

theorem toDigitsRev_length_le {fuel n k : ℕ} (hf : n ≤ fuel) (h : n < 10 ^ k) :
    (toDigitsRev fuel n).length ≤ k := by
  induction fuel generalizing n k with
  | zero => interval_cases n; simp [toDigitsRev]
  | succ fuel ih =>
    unfold toDigitsRev
    by_cases h0 : n = 0
    · simp [h0]
    · rw [if_neg h0]
      cases k with
      | zero => simp at h; omega
      | succ k =>
        simp only [List.length_cons]
        have hlt : n / 10 < 10 ^ k := by
          rw [Nat.div_lt_iff_lt_mul (by norm_num)]
          calc n < 10 ^ (k + 1) := h
          _ = 10 ^ k * 10 := by ring
        have hfuel : n / 10 ≤ fuel :=
          Nat.le_of_lt_succ (Nat.lt_of_lt_of_le
            (Nat.div_lt_self (Nat.pos_of_ne_zero h0) (by norm_num)) hf)
        have := ih hfuel hlt
        omega

theorem natDigitChars_length_le {n k : ℕ} (hk : 1 ≤ k) (h : n < 10 ^ k) :
    (natDigitChars n).length ≤ k := by
  unfold natDigitChars
  by_cases h0 : n = 0
  · simp [h0]; omega
  · rw [if_neg h0]
    simp only [List.length_reverse, List.length_map]
    exact toDigitsRev_length_le le_rfl h

/-- Claim C4, corrected: the integer part of the display string carries no
thousands grouping only below 1000 euros — there the display is the euro
sign, the integer digits, a comma and two fraction digits, as the claim
says (e.g. 123.45 gives the euro sign then 123,45). -/
theorem C4_no_grouping_below_1000 (cents : ℕ) (h : cents / 100 < 1000) :
    formatPrice cents =
      '€' :: (natDigitChars (cents / 100) ++ ',' :: twoFrac (cents % 100)) := by
  rw [formatPrice_eq,
    group3_short (natDigitChars_length_le (by norm_num) (by simpa using h))]

/-- Claim C4 counterexample: at 1234.56 the display is the grouped
`€1.234,56`, not the claim's ungrouped euro-1234,56 form: the Python format
specifier inserts thousands grouping, which the separator swap renders as
periods. -/
theorem C4_counterexample :
    formatPrice 123456 = ("€1.234,56").toList ∧
      formatPrice 123456 ≠ ("€1234,56").toList := by
  constructor <;> decide

/-- Witness for C4: 123.45 euros displays ungrouped as the claim's example. -/
theorem C4_witness :
    12345 / 100 < 1000 ∧
      formatPrice 12345 =
        '€' :: (natDigitChars (12345 / 100) ++ ',' :: twoFrac (12345 % 100)) ∧
      formatPrice 12345 = ("€123,45").toList :=
  ⟨by decide, C4_no_grouping_below_1000 12345 (by decide), by decide⟩

/-! ## Claims about the alert rules -/

/-- Claim C6: the percentage-drop reason is produced exactly when the price
dropped and the relative drop in percent reaches the threshold, with the
computed percentage as payload; the absolute-drop reason exactly when the
drop reaches the absolute threshold, with the delta as payload; on the
spec's examples (previous 450, current 427, thresholds 5 percent and 20)
both fire with payloads 46/9 (about 5.1 percent) and 23, and a risen price
(450 to 460) yields no reasons. -/
theorem C6_drop_rules :
    (∀ lastP cur tgt pct aThr p,
      AlertReason.pctDrop p ∈ alertReasonsFor lastP cur tgt pct aThr ↔
        (lastP > cur ∧ ((lastP - cur) / lastP) * 100 ≥ pct ∧
          p = ((lastP - cur) / lastP) * 100)) ∧
    (∀ lastP cur tgt pct aThr d,
      AlertReason.absDrop d ∈ alertReasonsFor lastP cur tgt pct aThr ↔
        (lastP > cur ∧ lastP - cur ≥ aThr ∧ d = lastP - cur)) ∧
    alertReasonsFor 450 427 0 5 20 =
      [AlertReason.pctDrop (46/9), AlertReason.absDrop 23] ∧
    alertReasonsFor 450 460 0 5 20 = [] := by
  refine ⟨?_, ?_, ?_, ?_⟩
  · intro lastP cur tgt pct aThr p
    unfold alertReasonsFor
    by_cases h1 : lastP > cur ∧ ((lastP - cur) / lastP) * 100 ≥ pct <;>
      by_cases h2 : lastP > cur ∧ lastP - cur ≥ aThr <;>
        by_cases h3 : tgt > 0 ∧ cur ≤ tgt <;>
          simp [h1, h2, h3] <;> tauto
  · intro lastP cur tgt pct aThr d
    unfold alertReasonsFor
    by_cases h1 : lastP > cur ∧ ((lastP - cur) / lastP) * 100 ≥ pct <;>
      by_cases h2 : lastP > cur ∧ lastP - cur ≥ aThr <;>
        by_cases h3 : tgt > 0 ∧ cur ≤ tgt <;>
          simp [h1, h2, h3] <;> tauto
  · norm_num [alertReasonsFor]
  · norm_num [alertReasonsFor]

/-- Claim C7: the target-reached reason fires exactly when a positive target
is configured and the current price is at or below it — the evaluation of
the rule never consults the previous price or the other thresholds, so it
fires regardless of whether the price dropped; and since the evaluator is a
pure function with no notified-state, it fires again on every evaluation
while the price stays at or below target: on the spec's example it fires in
the cycle that dropped 500 to 440 and again in the next cycle where the
price stayed 440. -/
theorem C7_target_rule :
    (∀ lastP cur tgt pct aThr t,
      AlertReason.targetReached t ∈ alertReasonsFor lastP cur tgt pct aThr ↔
        (tgt > 0 ∧ cur ≤ tgt ∧ t = tgt)) ∧
    AlertReason.targetReached 450 ∈ alertReasonsFor 500 440 450 5 20 ∧
    AlertReason.targetReached 450 ∈ alertReasonsFor 440 440 450 5 20 := by
  refine ⟨?_, ?_, ?_⟩
  · intro lastP cur tgt pct aThr t
    unfold alertReasonsFor
    by_cases h1 : lastP > cur ∧ ((lastP - cur) / lastP) * 100 ≥ pct <;>
      by_cases h2 : lastP > cur ∧ lastP - cur ≥ aThr <;>
        by_cases h3 : tgt > 0 ∧ cur ≤ tgt <;>
          simp [h1, h2, h3] <;> tauto
  · norm_num [alertReasonsFor]
  · norm_num [alertReasonsFor]

/-- Claim C8: when the baseline is absent (the lookup defaults to zero) or
either numeric price is exactly zero, the entry is skipped entirely — no
alert record at all is produced for it. -/
theorem C8_skip_guard (lastPrices : List (List Char × ℚ)) (cfg : AlertConfig)
    (pd : PriceData)
    (h : lookupD lastPrices pd.site = 0 ∨ parse_price pd.price = 0) :
    checkEntry lastPrices cfg pd = none := by
  unfold checkEntry
  rw [if_pos h]

/-- Witness for C8: a current reading of 450.00 with no stored baseline
yields nothing. -/
theorem C8_skip_witness :
    (lookupD [] (("Amazon.it").toList) = 0 ∨
      parse_price (("€450,00").toList) = 0) ∧
    checkEntry [] ⟨5, 20, []⟩
      ⟨("Amazon.it").toList, ("t").toList, ("€450,00").toList, ("u").toList⟩ = none :=
  ⟨Or.inl rfl,
    C8_skip_guard [] ⟨5, 20, []⟩
      ⟨("Amazon.it").toList, ("t").toList, ("€450,00").toList, ("u").toList⟩
      (Or.inl rfl)⟩

/-! ## Claims about results and the tracking cycle -/

/-- Claim C9: a `ScrapingResult` with `success` set always carries a
strictly positive numeric price — the validation step rejects non-positive
prices before a success record is built, and every failure path produces the
zero-priced failed record with `success` false. -/
theorem C9_success_price_pos (siteName url : List Char)
    (attempt : Except (List Char) (List Char × List Char × ℚ))
    (h : (scrape siteName url attempt).success = true) :
    0 < (scrape siteName url attempt).priceNumeric := by
  match attempt with
  | .error e => simp [scrape, failedResult] at h
  | .ok (title, priceText, priceNumeric) =>
    by_cases hv : validateExtractedData title priceText priceNumeric = true
    · have hp : 0 < priceNumeric := by
        simp [validateExtractedData] at hv
        exact hv.2.2
      simp [scrape, hv]
      exact hp
    · rw [Bool.not_eq_true] at hv
      simp [scrape, hv, failedResult] at h

/-- Witness for C9: a successful extraction at price 5. -/
theorem C9_witness :
    (scrape (("s").toList) (("u").toList)
        (Except.ok ((("t").toList), (("p").toList), (5 : ℚ)))).success = true ∧
    0 < (scrape (("s").toList) (("u").toList)
        (Except.ok ((("t").toList), (("p").toList), (5 : ℚ)))).priceNumeric :=
  ⟨by simp [scrape, validateExtractedData], C9_success_price_pos _ _ _
    (by simp [scrape, validateExtractedData])⟩

/-- Claim C10: in the per-cycle result processing, one site's failure
(an exception propagated by the gather, or the `None` left after the site
wrapper caught one) contributes nothing and leaves the sibling sites'
successful results exactly in place. -/
theorem C10_failure_isolated (pre post : List SiteOutcome) (o : SiteOutcome)
    (h : ∀ r, o = SiteOutcome.res r → r.success = false) :
    scrapeAllSites (pre ++ o :: post) =
        scrapeAllSites pre ++ scrapeAllSites post ∧
      ∀ r ∈ scrapeAllSites pre, r ∈ scrapeAllSites (pre ++ o :: post) := by
  have hmain : scrapeAllSites (pre ++ o :: post) =
      scrapeAllSites pre ++ scrapeAllSites post := by
    unfold scrapeAllSites
    rw [List.filterMap_append, List.filterMap_cons]
    cases o with
    | exc m => rfl
    | noneResult => rfl
    | res r => simp [h r rfl]
  exact ⟨hmain, fun r hr => hmain ▸ List.mem_append_left _ hr⟩

/-- Witness for C10: a successful site followed by an exception outcome. -/
theorem C10_witness :
    (∀ r, SiteOutcome.exc (("boom").toList) = SiteOutcome.res r →
        r.success = false) ∧
    (scrapeAllSites ([SiteOutcome.res ⟨("a").toList, ("t").toList, ("p").toList,
        ("f").toList, 5, ("EUR").toList, ("u").toList, true, none⟩] ++
        SiteOutcome.exc (("boom").toList) :: []) =
      scrapeAllSites [SiteOutcome.res ⟨("a").toList, ("t").toList, ("p").toList,
        ("f").toList, 5, ("EUR").toList, ("u").toList, true, none⟩] ++
        scrapeAllSites [] ∧
      ∀ r ∈ scrapeAllSites [SiteOutcome.res ⟨("a").toList, ("t").toList,
        ("p").toList, ("f").toList, 5, ("EUR").toList, ("u").toList, true, none⟩],
        r ∈ scrapeAllSites ([SiteOutcome.res ⟨("a").toList, ("t").toList,
          ("p").toList, ("f").toList, 5, ("EUR").toList, ("u").toList, true,
          none⟩] ++ SiteOutcome.exc (("boom").toList) :: [])) :=
  ⟨fun _ h => SiteOutcome.noConfusion h,
    C10_failure_isolated _ _ _ (fun _ h => SiteOutcome.noConfusion h)⟩

/-! ## Claims about the base parser's separator handling -/

theorem splitOnComma_no_comma {l : List Char} (h : ∀ c ∈ l, c ≠ ',') :
    splitOnComma l = [l] := by
  induction l with
  | nil => rfl
  | cons c t ih =>
    have hc : c ≠ ',' := h c (List.mem_cons_self c t)
    have ht := ih (fun x hx => h x (List.mem_cons_of_mem c hx))
    simp [splitOnComma, hc, ht]

theorem splitOnComma_single {ds fs : List Char} (hds : ∀ c ∈ ds, c ≠ ',')
    (hfs : ∀ c ∈ fs, c ≠ ',') :
    splitOnComma (ds ++ ',' :: fs) = [ds, fs] := by
  induction ds with
  | nil => simp [splitOnComma, splitOnComma_no_comma hfs]
  | cons c t ih =>
    have hc : c ≠ ',' := hds c (List.mem_cons_self c t)
    have ht := ih (fun x hx => hds x (List.mem_cons_of_mem c hx))
    simp [splitOnComma, hc, ht]

theorem floatVal_split {ds fs : List Char} (hds : ∀ c ∈ ds, c.isDigit = true)
    (hfs : ∀ c ∈ fs, c.isDigit = true) :
    floatVal (ds ++ '.' :: fs) =
      (digitsVal ds : ℚ) + (digitsVal fs : ℚ) / 10 ^ fs.length := by
  have hdsDot : ∀ c ∈ ds, decide (c ≠ '.') = true :=
    fun c hc => by simp [isDigit_ne_dot (hds c hc)]
  unfold floatVal
  rw [takeWhile_append_all _ hdsDot, dropWhile_append_all _ hdsDot]
  simp [List.takeWhile_cons, List.dropWhile_cons]

theorem floatVal_digits {l : List Char} (h : ∀ c ∈ l, c.isDigit = true) :
    floatVal l = (digitsVal l : ℚ) := by
  have hDot : ∀ c ∈ l, decide (c ≠ '.') = true :=
    fun c hc => by simp [isDigit_ne_dot (h c hc)]
  unfold floatVal
  rw [List.takeWhile_eq_self_iff.mpr hDot, List.dropWhile_eq_nil_iff.mpr hDot]
  simp [digitsVal]

theorem pyFloat_pos {l : List Char} (h1 : l ≠ []) (h2 : l ≠ ['.'])
    (h3 : ∀ c ∈ l, c.isDigit = true ∨ c = '.') (h4 : l.count '.' ≤ 1) :
    pyFloat l = some (floatVal l) := by
  unfold pyFloat
  rw [if_pos ⟨h1, h2, h3, h4⟩]

theorem searchP1_cons_digit {c : Char} {rest : List Char} (h : c.isDigit = true) :
    searchP1 (c :: rest) = some (captureGrouped isSepDot isSepDot (c :: rest)) := by
  simp [searchP1, h]

/-- Pattern 1 applied to a single-comma numeral with an integer group of at
most three digits and a fractional group of two or three digits captures the
whole numeral. -/
theorem captureGrouped_p1_comma {ds fs : List Char}
    (hlen : ds.length ≤ 3) (hds : ∀ c ∈ ds, c.isDigit = true)
    (hfs : ∀ c ∈ fs, c.isDigit = true) (h23 : fs.length = 2 ∨ fs.length = 3) :
    captureGrouped isSepDot isSepDot (ds ++ ',' :: fs) = ds ++ ',' :: fs := by
  have htake : (ds ++ ',' :: fs).takeWhile Char.isDigit = ds := by
    rw [takeWhile_append_all _ hds]
    simp [List.takeWhile_cons, show (',' : Char).isDigit = false from rfl]
  have htake3 : ((ds ++ ',' :: fs).takeWhile Char.isDigit).take 3 = ds := by
    rw [htake, List.take_of_length_le hlen]
  unfold captureGrouped
  rw [htake3]
  have hdlen : (ds ++ ',' :: fs).drop ds.length = ',' :: fs := List.drop_left ds _
  rw [hdlen]
  rcases h23 with h2 | h3
  · obtain ⟨a, b, rfl⟩ := List.length_eq_two.mp h2
    have ha : a.isDigit = true := hfs a (by simp)
    have hb : b.isDigit = true := hfs b (by simp)
    have hstar : starThrees isSepDot [',', a, b] = ([], [',', a, b]) := rfl
    rw [hstar]
    simp [optTwo, isSepDot, ha, hb]
  · obtain ⟨a, b, c, rfl⟩ := List.length_eq_three.mp h3
    have ha : a.isDigit = true := hfs a (by simp)
    have hb : b.isDigit = true := hfs b (by simp)
    have hc : c.isDigit = true := hfs c (by simp)
    have hstar : starThrees isSepDot [',', a, b, c] = ([',', a, b, c], []) := by
      simp [starThrees, isSepDot, ha, hb, hc]
    rw [hstar]
    simp [optTwo]

/-- The separator repair on a single-comma numeral: a two-digit fractional
group becomes a decimal point, anything else deletes the comma. -/
theorem fixSeparators_single_comma {ds fs : List Char}
    (hds : ∀ c ∈ ds, c.isDigit = true) (hfs : ∀ c ∈ fs, c.isDigit = true) :
    fixSeparators (ds ++ ',' :: fs) =
      if fs.length = 2 then ds ++ '.' :: fs else ds ++ fs := by
  have hdsnc : ∀ c ∈ ds, c ≠ ',' := fun c hc => isDigit_ne_comma (hds c hc)
  have hfsnc : ∀ c ∈ fs, c ≠ ',' := fun c hc => isDigit_ne_comma (hfs c hc)
  have hmem : ',' ∈ ds ++ ',' :: fs :=
    List.mem_append_right _ (List.mem_cons_self _ _)
  have hnodot : ¬ '.' ∈ ds ++ ',' :: fs := by
    intro hd
    rcases List.mem_append.mp hd with h | h
    · exact absurd (hds _ h) (by decide)
    · rcases List.mem_cons.mp h with h | h
      · exact absurd h (by decide)
      · exact absurd (hfs _ h) (by decide)
  unfold fixSeparators
  rw [if_neg (by tauto), if_pos hmem, splitOnComma_single hdsnc hfsnc]
  by_cases h2 : fs.length = 2
  · rw [if_pos (show ([ds, fs].length = 2 ∧ ([ds, fs].getD 1 []).length = 2) from
      ⟨rfl, by simpa using h2⟩), if_pos h2]
    rw [List.map_append, List.map_cons,
      map_eq_self_of (fun c hc => if_neg (hdsnc c hc)),
      map_eq_self_of (fun c hc => if_neg (hfsnc c hc)), if_pos rfl]
  · rw [if_neg (show ¬ ([ds, fs].length = 2 ∧ ([ds, fs].getD 1 []).length = 2) from by
      simp [h2]), if_neg h2]
    rw [List.filter_append, List.filter_cons]
    rw [List.filter_eq_self.mpr (fun c hc => by simp [hdsnc c hc]),
      List.filter_eq_self.mpr (fun c hc => by simp [hfsnc c hc])]
    simp

/-- The base parser on a single-comma numeral: decimal comma on a two-digit
fractional group, thousands comma (deleted) on a three-digit one. -/
theorem parsePrice_single_comma {ds fs : List Char} (hne : ds ≠ [])
    (hlen : ds.length ≤ 3) (hds : ∀ c ∈ ds, c.isDigit = true)
    (hfs : ∀ c ∈ fs, c.isDigit = true) (h23 : fs.length = 2 ∨ fs.length = 3) :
    parsePrice (ds ++ ',' :: fs) =
      some (if fs.length = 2 then
        (digitsVal ds : ℚ) + (digitsVal fs : ℚ) / 100
      else (digitsVal ds : ℚ) * 1000 + (digitsVal fs : ℚ)) := by
  have hlne : ds ++ ',' :: fs ≠ [] := by
    obtain ⟨c, t, rfl⟩ := List.exists_cons_of_ne_nil hne
    simp
  have htrim : trimChars (ds ++ ',' :: fs) = ds ++ ',' :: fs := by
    refine trimChars_eq_self ?_
    intro c hc
    rcases List.mem_append.mp hc with h | h
    · exact isDigit_not_ws (hds _ h)
    · rcases List.mem_cons.mp h with rfl | h
      · rfl
      · exact isDigit_not_ws (hfs _ h)
  have hsearch : searchP1 (ds ++ ',' :: fs) = some (ds ++ ',' :: fs) := by
    obtain ⟨c, t, rfl⟩ := List.exists_cons_of_ne_nil hne
    rw [List.cons_append,
      searchP1_cons_digit (hds c (List.mem_cons_self c t)),
      ← List.cons_append,
      captureGrouped_p1_comma (by simpa using hlen) hds hfs (by simpa using h23)]
  have hfix := fixSeparators_single_comma hds hfs
  have htry : tryPattern searchP1 (ds ++ ',' :: fs) =
      some (if fs.length = 2 then
        (digitsVal ds : ℚ) + (digitsVal fs : ℚ) / 100
      else (digitsVal ds : ℚ) * 1000 + (digitsVal fs : ℚ)) := by
    unfold tryPattern
    rw [hsearch]
    show pyFloat (fixSeparators (ds ++ ',' :: fs)) = _
    rw [hfix]
    by_cases h2 : fs.length = 2
    · rw [if_pos h2, if_pos h2,
        pyFloat_pos (by simp [hne]) ?_ ?_ ?_, floatVal_split hds hfs, h2]
      · norm_num
      · intro heq
        have := congrArg List.length heq
        simp at this
        omega
      · intro c hc
        rcases List.mem_append.mp hc with h | h
        · exact Or.inl (hds _ h)
        · rcases List.mem_cons.mp h with rfl | h
          · exact Or.inr rfl
          · exact Or.inl (hfs _ h)
      · rw [List.count_append, List.count_cons]
        rw [List.count_eq_zero.mpr (fun hd => absurd (hds _ hd) (by decide)),
          List.count_eq_zero.mpr (fun hd => absurd (hfs _ hd) (by decide))]
        simp
    · have h3 : fs.length = 3 := h23.resolve_left h2
      have hall : ∀ c ∈ ds ++ fs, c.isDigit = true := by
        intro c hc
        rcases List.mem_append.mp hc with h | h
        · exact hds _ h
        · exact hfs _ h
      rw [if_neg h2, if_neg h2,
        pyFloat_pos (by simp [hne]) ?_ ?_ ?_, floatVal_digits hall,
        digitsVal_append, h3]
      · push_cast
        ring_nf
      · intro heq
        have : ('.' : Char) ∈ ds ++ fs := by rw [heq]; simp
        exact absurd (hall _ this) (by decide)
      · exact fun c hc => Or.inl (hall c hc)
      · rw [List.count_eq_zero.mpr (fun hd => absurd (hall _ hd) (by decide))]
        norm_num
  unfold parsePrice
  rw [if_neg hlne, htrim, htry]

/-- Pattern 1 keeps a period-separated numeral with a two- or three-digit
fractional group intact (the separator classes of the star and the optional
tail both admit the period). -/
theorem captureGrouped_p1_period {ds fs : List Char} (hlen : ds.length ≤ 3)
    (hds : ∀ c ∈ ds, c.isDigit = true) (hfs : ∀ c ∈ fs, c.isDigit = true)
    (h23 : fs.length = 2 ∨ fs.length = 3) :
    captureGrouped isSepDot isSepDot (ds ++ '.' :: fs) = ds ++ '.' :: fs := by
  have htake : (ds ++ '.' :: fs).takeWhile Char.isDigit = ds := by
    rw [takeWhile_append_all _ hds]
    simp [List.takeWhile_cons, show ('.' : Char).isDigit = false from rfl]
  have htake3 : ((ds ++ '.' :: fs).takeWhile Char.isDigit).take 3 = ds := by
    rw [htake, List.take_of_length_le hlen]
  unfold captureGrouped
  rw [htake3]
  have hdlen : (ds ++ '.' :: fs).drop ds.length = '.' :: fs := List.drop_left ds _
  rw [hdlen]
  rcases h23 with h2 | h3
  · obtain ⟨a, b, rfl⟩ := List.length_eq_two.mp h2
    have ha : a.isDigit = true := hfs a (by simp)
    have hb : b.isDigit = true := hfs b (by simp)
    have hstar : starThrees isSepDot ['.', a, b] = ([], ['.', a, b]) := rfl
    rw [hstar]
    simp [optTwo, isSepDot, ha, hb]
  · obtain ⟨a, b, c, rfl⟩ := List.length_eq_three.mp h3
    have ha : a.isDigit = true := hfs a (by simp)
    have hb : b.isDigit = true := hfs b (by simp)
    have hc : c.isDigit = true := hfs c (by simp)
    have hstar : starThrees isSepDot ['.', a, b, c] = (['.', a, b, c], []) := by
      simp [starThrees, isSepDot, ha, hb, hc]
    rw [hstar]
    simp [optTwo]

/-- Pattern 1 drops a one-digit fractional group entirely: the star needs
three digits after the separator and the optional tail needs two, so the
capture stops at the integer group. -/
theorem captureGrouped_p1_one {sep a : Char} {ds : List Char}
    (hsep : sep.isDigit = false) (hlen : ds.length ≤ 3)
    (hds : ∀ c ∈ ds, c.isDigit = true) :
    captureGrouped isSepDot isSepDot (ds ++ sep :: [a]) = ds := by
  have htake : (ds ++ sep :: [a]).takeWhile Char.isDigit = ds := by
    rw [takeWhile_append_all _ hds]
    simp [List.takeWhile_cons, hsep]
  have htake3 : ((ds ++ sep :: [a]).takeWhile Char.isDigit).take 3 = ds := by
    rw [htake, List.take_of_length_le hlen]
  unfold captureGrouped
  rw [htake3]
  have hdlen : (ds ++ sep :: [a]).drop ds.length = sep :: [a] := List.drop_left ds _
  rw [hdlen]
  have hstar : starThrees isSepDot (sep :: [a]) = ([], sep :: [a]) := rfl
  rw [hstar]
  simp [optTwo]

theorem fixSeparators_no_comma {l : List Char} (h : (',' : Char) ∉ l) :
    fixSeparators l = l := by
  unfold fixSeparators
  rw [if_neg (fun hand => h hand.1), if_neg h]

/-- The base parser on a single-period numeral with a two- or three-digit
fractional group: the period is kept as a decimal point (the comma repair
never touches periods without a comma), never removed as thousands
grouping. -/
theorem parsePrice_single_period {ds fs : List Char} (hne : ds ≠ [])
    (hlen : ds.length ≤ 3) (hds : ∀ c ∈ ds, c.isDigit = true)
    (hfs : ∀ c ∈ fs, c.isDigit = true) (h23 : fs.length = 2 ∨ fs.length = 3) :
    parsePrice (ds ++ '.' :: fs) =
      some ((digitsVal ds : ℚ) + (digitsVal fs : ℚ) / 10 ^ fs.length) := by
  have hlne : ds ++ '.' :: fs ≠ [] := by
    obtain ⟨c, t, rfl⟩ := List.exists_cons_of_ne_nil hne
    simp
  have htrim : trimChars (ds ++ '.' :: fs) = ds ++ '.' :: fs := by
    refine trimChars_eq_self ?_
    intro c hc
    rcases List.mem_append.mp hc with h | h
    · exact isDigit_not_ws (hds _ h)
    · rcases List.mem_cons.mp h with rfl | h
      · rfl
      · exact isDigit_not_ws (hfs _ h)
  have hsearch : searchP1 (ds ++ '.' :: fs) = some (ds ++ '.' :: fs) := by
    obtain ⟨c, t, rfl⟩ := List.exists_cons_of_ne_nil hne
    rw [List.cons_append,
      searchP1_cons_digit (hds c (List.mem_cons_self c t)),
      ← List.cons_append,
      captureGrouped_p1_period (by simpa using hlen) hds hfs (by simpa using h23)]
  have hnocomma : (',' : Char) ∉ ds ++ '.' :: fs := by
    intro hm
    rcases List.mem_append.mp hm with h | h
    · exact absurd (hds _ h) (by decide)
    · rcases List.mem_cons.mp h with h | h
      · exact absurd h (by decide)
      · exact absurd (hfs _ h) (by decide)
  have htry : tryPattern searchP1 (ds ++ '.' :: fs) =
      some ((digitsVal ds : ℚ) + (digitsVal fs : ℚ) / 10 ^ fs.length) := by
    unfold tryPattern
    rw [hsearch]
    show pyFloat (fixSeparators (ds ++ '.' :: fs)) = _
    rw [fixSeparators_no_comma hnocomma,
      pyFloat_pos hlne ?_ ?_ ?_, floatVal_split hds hfs]
    · intro heq
      have hlen2 := congrArg List.length heq
      have hpos : 0 < ds.length := List.length_pos.mpr hne
      simp at hlen2
      omega
    · intro c hc
      rcases List.mem_append.mp hc with h | h
      · exact Or.inl (hds _ h)
      · rcases List.mem_cons.mp h with rfl | h
        · exact Or.inr rfl
        · exact Or.inl (hfs _ h)
    · rw [List.count_append, List.count_cons]
      rw [List.count_eq_zero.mpr (fun hd => absurd (hds _ hd) (by decide)),
        List.count_eq_zero.mpr (fun hd => absurd (hfs _ hd) (by decide))]
      simp
  unfold parsePrice
  rw [if_neg hlne, htrim, htry]

/-- The base parser on a numeral whose fractional group has a single digit:
the capture stops at the integer group for either separator, so separator
and fraction are dropped and the integer value is returned. -/
theorem parsePrice_one_digit_fraction {sep a : Char} {ds : List Char}
    (hsepd : sep.isDigit = false) (hsepw : sep.isWhitespace = false)
    (hne : ds ≠ []) (hlen : ds.length ≤ 3)
    (hds : ∀ c ∈ ds, c.isDigit = true) (ha : a.isDigit = true) :
    parsePrice (ds ++ sep :: [a]) = some ((digitsVal ds : ℚ)) := by
  have hlne : ds ++ sep :: [a] ≠ [] := by
    obtain ⟨c, t, rfl⟩ := List.exists_cons_of_ne_nil hne
    simp
  have htrim : trimChars (ds ++ sep :: [a]) = ds ++ sep :: [a] := by
    refine trimChars_eq_self ?_
    intro c hc
    rcases List.mem_append.mp hc with h | h
    · exact isDigit_not_ws (hds _ h)
    · rcases List.mem_cons.mp h with rfl | h
      · exact hsepw
      · rcases List.mem_singleton.mp h with rfl
        exact isDigit_not_ws ha
  have hsearch : searchP1 (ds ++ sep :: [a]) = some ds := by
    obtain ⟨c, t, rfl⟩ := List.exists_cons_of_ne_nil hne
    rw [List.cons_append,
      searchP1_cons_digit (hds c (List.mem_cons_self c t)),
      ← List.cons_append,
      captureGrouped_p1_one hsepd (by simpa using hlen) hds]
  have hnocomma : (',' : Char) ∉ ds :=
    fun hm => absurd (hds _ hm) (by decide)
  have htry : tryPattern searchP1 (ds ++ sep :: [a]) =
      some ((digitsVal ds : ℚ)) := by
    unfold tryPattern
    rw [hsearch]
    show pyFloat (fixSeparators ds) = _
    rw [fixSeparators_no_comma hnocomma,
      pyFloat_pos hne ?_ (fun x hx => Or.inl (hds x hx)) ?_, floatVal_digits hds]
    · intro heq
      have : ('.' : Char) ∈ ds := by rw [heq]; simp
      exact absurd (hds _ this) (by decide)
    · rw [List.count_eq_zero.mpr (fun hd => absurd (hds _ hd) (by decide))]
      norm_num
  unfold parsePrice
  rw [if_neg hlne, htrim, htry]

/-- Claim C3 counterexample: on the period-separated numeral `1.234`, whose
separator-delimited fractional group has three digits, the parser keeps the
period as a decimal point and returns 1.234 — the separator is not removed
as a thousands grouping, so the result is not the integer 1234. -/
theorem C3_counterexample :
    parsePrice (("1.234").toList) = some ((617 : ℚ) / 500) ∧
      ((617 : ℚ) / 500) ≠ 1234 := by
  constructor
  · have h : parsePrice (("1.234").toList) =
        some ((digitsVal (("1").toList) : ℚ) +
          (digitsVal (("234").toList) : ℚ) / 10 ^ 3) := rfl
    rw [h, show digitsVal (("1").toList) = 1 from by decide,
      show digitsVal (("234").toList) = 234 from by decide]
    norm_num
  · norm_num

/-- Claim C3, corrected: the two-digit/thousands disambiguation governs
comma separators — a single-comma numeral (integer group of one to three
digits) parses as a decimal exactly when its fractional group has two
digits, and has the comma removed as thousands grouping when it has three.
A period separator is never removed as thousands grouping: with a two- or
three-digit fractional group it stays a decimal point (so 1.234 parses as
1.234, not 1234). A one-digit fractional group is dropped entirely by the
capture for both separators (1.2 parses as 1, 12,3 as 12). The claim's
examples hold: 486,00 with euro sign gives 486.00, 1.234,56 gives 1234.56,
bare 123 gives 123.00. -/
theorem C3_separator_disambiguation (ds fs : List Char) (hne : ds ≠ [])
    (hlen : ds.length ≤ 3) (hds : ∀ c ∈ ds, c.isDigit = true)
    (hfs : ∀ c ∈ fs, c.isDigit = true) :
    (fs.length = 2 → parsePrice (ds ++ ',' :: fs) =
        some ((digitsVal ds : ℚ) + (digitsVal fs : ℚ) / 100)) ∧
    (fs.length = 3 → parsePrice (ds ++ ',' :: fs) =
        some ((digitsVal ds : ℚ) * 1000 + (digitsVal fs : ℚ))) ∧
    (fs.length = 2 → parsePrice (ds ++ '.' :: fs) =
        some ((digitsVal ds : ℚ) + (digitsVal fs : ℚ) / 100)) ∧
    (fs.length = 3 → parsePrice (ds ++ '.' :: fs) =
        some ((digitsVal ds : ℚ) + (digitsVal fs : ℚ) / 1000)) ∧
    (fs.length = 1 → parsePrice (ds ++ ',' :: fs) = some ((digitsVal ds : ℚ))) ∧
    (fs.length = 1 → parsePrice (ds ++ '.' :: fs) = some ((digitsVal ds : ℚ))) ∧
    parsePrice (("1.2").toList) = some 1 ∧
    parsePrice (("12,3").toList) = some 12 ∧
    parsePrice (("€486,00").toList) = some 486 ∧
    parsePrice (("1.234,56").toList) = some ((30864 : ℚ) / 25) ∧
    parsePrice (("123").toList) = some 123 := by
  refine ⟨?_, ?_, ?_, ?_, ?_, ?_, ?_, ?_, ?_, ?_, ?_⟩
  · intro h2
    rw [parsePrice_single_comma hne hlen hds hfs (Or.inl h2), if_pos h2]
  · intro h3
    have hne2 : ¬ fs.length = 2 := by omega
    rw [parsePrice_single_comma hne hlen hds hfs (Or.inr h3), if_neg hne2]
  · intro h2
    rw [parsePrice_single_period hne hlen hds hfs (Or.inl h2), h2]
    norm_num
  · intro h3
    rw [parsePrice_single_period hne hlen hds hfs (Or.inr h3), h3]
    norm_num
  · intro h1
    obtain ⟨a, rfl⟩ := List.length_eq_one.mp h1
    exact parsePrice_one_digit_fraction (by decide) (by decide) hne hlen hds
      (hfs a (List.mem_singleton_self a))
  · intro h1
    obtain ⟨a, rfl⟩ := List.length_eq_one.mp h1
    exact parsePrice_one_digit_fraction (by decide) (by decide) hne hlen hds
      (hfs a (List.mem_singleton_self a))
  · have h : parsePrice (("1.2").toList) =
        some ((digitsVal (("1").toList) : ℚ) +
          (digitsVal ([] : List Char) : ℚ) / 10 ^ 0) := rfl
    rw [h, show digitsVal (("1").toList) = 1 from by decide,
      show digitsVal ([] : List Char) = 0 from by decide]
    norm_num
  · have h : parsePrice (("12,3").toList) =
        some ((digitsVal (("12").toList) : ℚ) +
          (digitsVal ([] : List Char) : ℚ) / 10 ^ 0) := rfl
    rw [h, show digitsVal (("12").toList) = 12 from by decide,
      show digitsVal ([] : List Char) = 0 from by decide]
    norm_num
  · have h : parsePrice (("€486,00").toList) =
        some ((digitsVal (("486").toList) : ℚ) +
          (digitsVal (("00").toList) : ℚ) / 10 ^ 2) := rfl
    rw [h, show digitsVal (("486").toList) = 486 from by decide,
      show digitsVal (("00").toList) = 0 from by decide]
    norm_num
  · have h : parsePrice (("1.234,56").toList) =
        some ((digitsVal (("1234").toList) : ℚ) +
          (digitsVal (("56").toList) : ℚ) / 10 ^ 2) := rfl
    rw [h, show digitsVal (("1234").toList) = 1234 from by decide,
      show digitsVal (("56").toList) = 56 from by decide]
    norm_num
  · have h : parsePrice (("123").toList) =
        some ((digitsVal (("123").toList) : ℚ) +
          (digitsVal ([] : List Char) : ℚ) / 10 ^ 0) := rfl
    rw [h, show digitsVal (("123").toList) = 123 from by decide,
      show digitsVal ([] : List Char) = 0 from by decide]
    norm_num

/-- Witness for C3: the amended statement at the 486,00 fraction shape. -/
theorem C3_witness :
    ((("486").toList) ≠ ([] : List Char) ∧ (("486").toList).length ≤ 3 ∧
      (∀ c ∈ (("486").toList), c.isDigit = true) ∧
      (∀ c ∈ (("00").toList), c.isDigit = true)) ∧
    (((("00").toList).length = 2 →
        parsePrice ((("486").toList) ++ ',' :: (("00").toList)) =
          some ((digitsVal (("486").toList) : ℚ) +
            (digitsVal (("00").toList) : ℚ) / 100)) ∧
      ((("00").toList).length = 3 →
        parsePrice ((("486").toList) ++ ',' :: (("00").toList)) =
          some ((digitsVal (("486").toList) : ℚ) * 1000 +
            (digitsVal (("00").toList) : ℚ))) ∧
      ((("00").toList).length = 2 →
        parsePrice ((("486").toList) ++ '.' :: (("00").toList)) =
          some ((digitsVal (("486").toList) : ℚ) +
            (digitsVal (("00").toList) : ℚ) / 100)) ∧
      ((("00").toList).length = 3 →
        parsePrice ((("486").toList) ++ '.' :: (("00").toList)) =
          some ((digitsVal (("486").toList) : ℚ) +
            (digitsVal (("00").toList) : ℚ) / 1000)) ∧
      ((("00").toList).length = 1 →
        parsePrice ((("486").toList) ++ ',' :: (("00").toList)) =
          some ((digitsVal (("486").toList) : ℚ))) ∧
      ((("00").toList).length = 1 →
        parsePrice ((("486").toList) ++ '.' :: (("00").toList)) =
          some ((digitsVal (("486").toList) : ℚ))) ∧
      parsePrice (("1.2").toList) = some 1 ∧
      parsePrice (("12,3").toList) = some 12 ∧
      parsePrice (("€486,00").toList) = some 486 ∧
      parsePrice (("1.234,56").toList) = some ((30864 : ℚ) / 25) ∧
      parsePrice (("123").toList) = some 123) :=
  ⟨⟨by decide, by decide, by decide, by decide⟩,
    C3_separator_disambiguation (("486").toList) (("00").toList)
      (by decide) (by decide) (by decide) (by decide)⟩


/-! ## Claims about multi-amount price containers -/

/-- Claim C2 counterexample: on the container text with a struck-through
599,00 followed by the sale price 480,00, the amazon variant's normalizer
rebuilds the price from the **first two** digit runs and yields 599,00, not
the last amount 480,00 — so extraction does not yield the last amount in
every site variant. -/
theorem C2_counterexample :
    amazonNormalizePrice (("€599,00 €480,00").toList) = ("€599,00").toList ∧
      amazonNormalizePrice (("€599,00 €480,00").toList) ≠ ("€480,00").toList := by
  constructor <;> decide

/-- Claim C2, corrected: only the phoneclick scraper selects the **last**
euro amount of a price container (its matches on the example being 599,00
then 480,00, it returns 480,00, worth 480.00); the amazon and teknozone
normalizers keep the first textual amount, 599,00, worth 599.00. -/
theorem C2_last_amount_selection :
    scrapePhoneclickPrice (("€599,00 €480,00").toList) =
        some (("€480,00").toList) ∧
      findallEuro (("€599,00 €480,00").toList) =
        [("599,00").toList, ("480,00").toList] ∧
      tzNormalizePrice (("€599,00 €480,00").toList) = ("€599,00").toList ∧
      amazonNormalizePrice (("€599,00 €480,00").toList) = ("€599,00").toList ∧
      parse_price (("€480,00").toList) = 480 ∧
      parse_price (("€599,00").toList) = 599 := by
  refine ⟨by decide, by decide, by decide, by decide, ?_, ?_⟩
  · have h : parse_price (("€480,00").toList) =
        (digitsVal (("480").toList) : ℚ) +
          (digitsVal (("00").toList) : ℚ) / 10 ^ 2 := rfl
    rw [h, show digitsVal (("480").toList) = 480 from by decide,
      show digitsVal (("00").toList) = 0 from by decide]
    norm_num
  · have h : parse_price (("€599,00").toList) =
        (digitsVal (("599").toList) : ℚ) +
          (digitsVal (("00").toList) : ℚ) / 10 ^ 2 := rfl
    rw [h, show digitsVal (("599").toList) = 599 from by decide,
      show digitsVal (("00").toList) = 0 from by decide]
    norm_num

/-! ## Claims about failure on digit-free input -/

theorem trimChars_subset {l : List Char} : trimChars l ⊆ l := by
  intro c hc
  unfold trimChars at hc
  rw [List.mem_reverse] at hc
  have h1 := (List.dropWhile_sublist (l := (l.dropWhile Char.isWhitespace).reverse)
    Char.isWhitespace).subset hc
  rw [List.mem_reverse] at h1
  exact (List.dropWhile_sublist Char.isWhitespace).subset h1

theorem searchP1_none {l : List Char} (h : ∀ c ∈ l, c.isDigit = false) :
    searchP1 l = none := by
  induction l with
  | nil => rfl
  | cons c rest ih =>
    simp [searchP1, h c (List.mem_cons_self c rest),
      ih (fun x hx => h x (List.mem_cons_of_mem c hx))]

theorem searchP2_none {l : List Char} (h : ∀ c ∈ l, c.isDigit = false) :
    searchP2 l = none := by
  induction l with
  | nil => rfl
  | cons c rest ih =>
    simp [searchP2, h c (List.mem_cons_self c rest),
      ih (fun x hx => h x (List.mem_cons_of_mem c hx))]

theorem searchP3_none {l : List Char} (h : ∀ c ∈ l, c.isDigit = false) :
    searchP3 l = none := by
  induction l with
  | nil => rfl
  | cons c rest ih =>
    have hp : p3At (c :: rest) = none := by
      unfold p3At
      rw [if_pos]
      rw [List.takeWhile_cons, h c (List.mem_cons_self c rest)]
      simp
    simp [searchP3, hp, ih (fun x hx => h x (List.mem_cons_of_mem c hx))]

theorem searchP4_none {l : List Char} (h : ∀ c ∈ l, c.isDigit = false) :
    searchP4 l = none := by
  induction l with
  | nil => rfl
  | cons c rest ih =>
    simp [searchP4, h c (List.mem_cons_self c rest),
      ih (fun x hx => h x (List.mem_cons_of_mem c hx))]

/-- The base parser rejects every digit-free text. -/
theorem parsePrice_none {s : List Char} (h : ∀ c ∈ s, c.isDigit = false) :
    parsePrice s = none := by
  by_cases hs : s = []
  · rw [hs]; rfl
  · have htr : ∀ c ∈ trimChars s, c.isDigit = false :=
      fun c hc => h c (trimChars_subset hc)
    unfold parsePrice
    rw [if_neg hs]
    unfold tryPattern
    rw [searchP1_none htr, searchP2_none htr, searchP3_none htr,
      searchP4_none htr]

theorem trimChars_mem {l : List Char} {c : Char} (hc : c ∈ l)
    (hw : c.isWhitespace = false) : c ∈ trimChars l := by
  have step : ∀ (m : List Char), c ∈ m → c ∈ m.dropWhile Char.isWhitespace := by
    intro m hm
    induction m with
    | nil => exact absurd hm (List.not_mem_nil c)
    | cons d t ih =>
      rw [List.dropWhile_cons]
      by_cases hd : d.isWhitespace = true
      · rw [hd]
        simp only [if_true]
        rcases List.mem_cons.mp hm with rfl | hm2
        · exact absurd hd (by rw [hw]; simp)
        · exact ih hm2
      · rw [Bool.not_eq_true] at hd
        rw [hd]
        simpa using hm
  unfold trimChars
  rw [List.mem_reverse]
  exact step _ (by rw [List.mem_reverse]; exact step _ hc)

theorem searchP4_some {l : List Char} (h : ∃ c ∈ l, c.isDigit = true) :
    ∃ ds, searchP4 l = some ds ∧ ds ≠ [] ∧ ∀ c ∈ ds, c.isDigit = true := by
  induction l with
  | nil => simp at h
  | cons c rest ih =>
    by_cases hc : c.isDigit = true
    · refine ⟨(c :: rest).takeWhile Char.isDigit, by simp [searchP4, hc], ?_, ?_⟩
      · rw [List.takeWhile_cons, hc]
        simp
      · intro x hx
        exact List.mem_takeWhile_imp hx
    · obtain ⟨d, hd, hdig⟩ := h
      rcases List.mem_cons.mp hd with rfl | hd2
      · exact absurd hdig hc
      · obtain ⟨ds, hds, hne, hall⟩ := ih ⟨d, hd2, hdig⟩
        rw [Bool.not_eq_true] at hc
        exact ⟨ds, by simp [searchP4, hc, hds], hne, hall⟩

/-- The base parser succeeds on every text with a digit: the bare digit-run
fallback pattern always converts. -/
theorem parsePrice_some {s : List Char} (h : ∃ c ∈ s, c.isDigit = true) :
    (parsePrice s).isSome = true := by
  obtain ⟨c, hc, hdig⟩ := h
  have hs : s ≠ [] := by
    intro heq
    rw [heq] at hc
    exact absurd hc (List.not_mem_nil c)
  have hmem : c ∈ trimChars s := trimChars_mem hc (isDigit_not_ws hdig)
  obtain ⟨ds, hds, hne, hall⟩ := searchP4_some ⟨c, hmem, hdig⟩
  have hp4 : tryPattern searchP4 (trimChars s) = some (floatVal ds) := by
    unfold tryPattern
    rw [hds]
    show pyFloat (fixSeparators ds) = _
    have hfix : fixSeparators ds = ds := by
      unfold fixSeparators
      rw [if_neg, if_neg]
      · intro hmemc
        exact absurd (hall _ hmemc) (by decide)
      · intro hand
        exact absurd (hall _ hand.1) (by decide)
    rw [hfix, pyFloat_pos hne ?_ (fun x hx => Or.inl (hall x hx)) ?_]
    · intro heq
      have : ('.' : Char) ∈ ds := by rw [heq]; simp
      exact absurd (hall _ this) (by decide)
    · rw [List.count_eq_zero.mpr (fun hd => absurd (hall _ hd) (by decide))]
      norm_num
  unfold parsePrice
  rw [if_neg hs]
  cases h1 : tryPattern searchP1 (trimChars s) with
  | some v => simp
  | none =>
    cases h2 : tryPattern searchP2 (trimChars s) with
    | some v => simp
    | none =>
      cases h3 : tryPattern searchP3 (trimChars s) with
      | some v => simp
      | none => simp [hp4]

theorem findNumToken_none {l : List Char} (h : ∀ c ∈ l, c.isDigit = false) :
    findNumToken l = none := by
  induction l with
  | nil => rfl
  | cons c rest ih =>
    simp [findNumToken, h c (List.mem_cons_self c rest),
      ih (fun x hx => h x (List.mem_cons_of_mem c hx))]

/-- The alert parser returns 0.0 (not a failure) on every digit-free text. -/
theorem parse_price_no_digit {s : List Char} (h : ∀ c ∈ s, c.isDigit = false) :
    parse_price s = 0 := by
  have hrepl : ∀ c ∈ (s.filter (fun c => decide (c ≠ '.'))).map
      (fun c => if c = ',' then '.' else c), c.isDigit = false := by
    intro c hc
    rw [List.mem_map] at hc
    obtain ⟨d, hd, rfl⟩ := hc
    have hds : d ∈ s := List.mem_of_mem_filter hd
    by_cases hcomma : d = ','
    · rw [if_pos hcomma]; rfl
    · rw [if_neg hcomma]; exact h d hds
  unfold parse_price
  rw [findNumToken_none hrepl]

theorem digitRunsAux_no_digit {fuel : ℕ} {l : List Char}
    (h : ∀ c ∈ l, c.isDigit = false) : digitRunsAux fuel l = [] := by
  induction fuel generalizing l with
  | zero => rfl
  | succ fuel ih =>
    cases l with
    | nil => rfl
    | cons c rest =>
      simp [digitRunsAux, h c (List.mem_cons_self c rest),
        ih (fun x hx => h x (List.mem_cons_of_mem c hx))]

theorem digitRuns_no_digit {l : List Char} (h : ∀ c ∈ l, c.isDigit = false) :
    digitRuns l = [] := digitRunsAux_no_digit h

theorem searchSepPair_none {l : List Char} (h : ∀ c ∈ l, c.isDigit = false) :
    searchSepPair l = none := by
  induction l with
  | nil => rfl
  | cons c rest ih =>
    have hp : sepPairAt (c :: rest) = none := by
      unfold sepPairAt
      rw [if_pos]
      rw [List.takeWhile_cons, h c (List.mem_cons_self c rest)]
      simp
    simp [searchSepPair, hp, ih (fun x hx => h x (List.mem_cons_of_mem c hx))]

/-- The amazon normalizer returns the stripped text unchanged (not a
failure) when no digit exists. -/
theorem amazon_no_digit {t : List Char} (h : ∀ c ∈ t, c.isDigit = false) :
    amazonNormalizePrice t = trimChars t := by
  have htr : ∀ c ∈ trimChars t, c.isDigit = false :=
    fun c hc => h c (trimChars_subset hc)
  simp [amazonNormalizePrice, digitRuns_no_digit htr, searchSepPair_none htr,
    searchP4_none htr]

/-- Claim C5 counterexample: on the digit-free input `abc` the alert
system's `parse_price` returns the numeric value 0.0 instead of failing,
and amazon's `normalize_price` returns the text unchanged — so not all the
cited normalizers fail with `UnparsablePrice` on digit-free input. -/
theorem C5_counterexample :
    parse_price (("abc").toList) = 0 ∧
      amazonNormalizePrice (("abc").toList) = ("abc").toList := ⟨rfl, by decide⟩

/-- Claim C5, corrected: the base scraper's `_parse_price` does fail exactly
on digit-free input — it raises when no digit run exists and succeeds
whenever one does — but the alert system's `parse_price` instead returns the
numeric value 0.0 on digit-free input, and amazon's `normalize_price`
returns the stripped text unchanged. -/
theorem C5_no_digit_behaviour (s : List Char) (h : ∀ c ∈ s, c.isDigit = false) :
    parsePrice s = none ∧ parse_price s = 0 ∧
      amazonNormalizePrice s = trimChars s ∧
      ∀ t : List Char, (parsePrice t).isSome = true ↔ ∃ c ∈ t, c.isDigit = true := by
  refine ⟨parsePrice_none h, parse_price_no_digit h, amazon_no_digit h, ?_⟩
  intro t
  constructor
  · intro hsome
    by_contra hno
    push_neg at hno
    have hall : ∀ c ∈ t, c.isDigit = false := by
      intro c hc
      have := hno c hc
      rwa [← Bool.not_eq_true]
    rw [parsePrice_none hall] at hsome
    simp at hsome
  · exact parsePrice_some

/-- Witness for C5: the digit-free input `abc`. -/
theorem C5_witness :
    (∀ c ∈ (("abc").toList), c.isDigit = false) ∧
      (parsePrice (("abc").toList) = none ∧ parse_price (("abc").toList) = 0 ∧
        amazonNormalizePrice (("abc").toList) = trimChars (("abc").toList) ∧
        ∀ t : List Char, (parsePrice t).isSome = true ↔ ∃ c ∈ t, c.isDigit = true) :=
  ⟨by decide, C5_no_digit_behaviour (("abc").toList) (by decide)⟩
